import Mathlib

/-!
Verification of the PeerOTP core (src/otp/index.js) against its
natural-language specification.

The JavaScript source is shallowly embedded below.  JavaScript 32-bit
bitwise semantics (`<<`, `|`, `&`, `>>>` operate on the value reduced
modulo 2^32) are made explicit with `% 4294967296` where the source
relies on them; machine integers are modelled as `Nat`.  External
collaborators are modelled as parameters: the 20 random bytes fed to
`generateSecret`, and the 32-byte `crypto.hash` used for topic
derivation (an arbitrary function `String → List Nat`).  HMAC-SHA1
(Node's built-in `crypto`, fixed by RFC 2104/RFC 3174) is implemented
executably so the code engine evaluates on concrete inputs.
-/

set_option maxRecDepth 100000

/-- The JavaScript ToUint32 modulus 2^32. -/
def M32 : Nat := 4294967296

/-- Rotate a 32-bit word left by `n`. -/
def rotl (n x : Nat) : Nat := ((x <<< n) ||| (x >>> (32 - n))) % M32

/-- SHA-1 round function (RFC 3174). -/
def sha1F (i b c d : Nat) : Nat :=
  if i < 20 then (b &&& c) ||| ((b ^^^ 4294967295) &&& d)
  else if i < 40 then b ^^^ c ^^^ d
  else if i < 60 then (b &&& c) ||| (b &&& d) ||| (c &&& d)
  else b ^^^ c ^^^ d

/-- SHA-1 round constants. -/
def sha1K (i : Nat) : Nat :=
  if i < 20 then 1518500249
  else if i < 40 then 1859775393
  else if i < 60 then 2400959708
  else 3395469782

/-- One SHA-1 round on the state (a, b, c, d, e) with (round index, schedule word). -/
def sha1Round (st : Nat × Nat × Nat × Nat × Nat) (iw : Nat × Nat) :
    Nat × Nat × Nat × Nat × Nat :=
  ((rotl 5 st.1 + sha1F iw.1 st.2.1 st.2.2.1 st.2.2.2.1 + st.2.2.2.2 + sha1K iw.1 + iw.2) % M32,
   st.1, rotl 30 st.2.1, st.2.2.1, st.2.2.2.1)

/-- Extend the 16 block words (kept newest-first) by `fuel` schedule words. -/
def extendW : List Nat → Nat → List Nat
  | wrev, 0 => wrev.reverse
  | wrev, n + 1 =>
    extendW ((rotl 1 ((wrev.getD 2 0) ^^^ (wrev.getD 7 0) ^^^ (wrev.getD 13 0)
      ^^^ (wrev.getD 15 0))) :: wrev) n

/-- SHA-1 compression of one 16-word block into the 5-word chaining state. -/
def sha1Compress (hs : List Nat) (block : List Nat) : List Nat :=
  let w := extendW block.reverse 64
  let st := w.enum.foldl sha1Round
    (hs.getD 0 0, hs.getD 1 0, hs.getD 2 0, hs.getD 3 0, hs.getD 4 0)
  [(hs.getD 0 0 + st.1) % M32, (hs.getD 1 0 + st.2.1) % M32, (hs.getD 2 0 + st.2.2.1) % M32,
   (hs.getD 3 0 + st.2.2.2.1) % M32, (hs.getD 4 0 + st.2.2.2.2) % M32]

/-- Big-endian 8-byte encoding of a natural number (its low 64 bits). -/
def be8 (n : Nat) : List Nat :=
  [(n >>> 56) &&& 255, (n >>> 48) &&& 255, (n >>> 40) &&& 255, (n >>> 32) &&& 255,
   (n >>> 24) &&& 255, (n >>> 16) &&& 255, (n >>> 8) &&& 255, n &&& 255]

/-- Pack bytes into big-endian 32-bit words. -/
def bytesToWords : List Nat → List Nat
  | b0 :: b1 :: b2 :: b3 :: rest =>
    ((b0 <<< 24) ||| (b1 <<< 16) ||| (b2 <<< 8) ||| b3) :: bytesToWords rest
  | _ => []

/-- Split a word list into 16-word blocks (fuel-driven structural recursion;
the fuel `ws.length` always suffices since every step consumes a word). -/
def chunkWordsAux : Nat → List Nat → List (List Nat)
  | 0, _ => []
  | _, [] => []
  | fuel + 1, w :: ws => (w :: ws.take 15) :: chunkWordsAux fuel (ws.drop 15)

/-- Split a word list into 16-word blocks. -/
def chunkWords (ws : List Nat) : List (List Nat) := chunkWordsAux ws.length ws

/-- Big-endian bytes of one 32-bit word. -/
def wordBytes (w : Nat) : List Nat :=
  [(w >>> 24) &&& 255, (w >>> 16) &&& 255, (w >>> 8) &&& 255, w &&& 255]

/-- SHA-1 initial chaining state. -/
def initH : List Nat := [1732584193, 4023233417, 2562383102, 271733878, 3285377520]

/-- SHA-1 of a byte sequence (RFC 3174), as 20 bytes. -/
def sha1 (msg : List Nat) : List Nat :=
  let padded := msg ++ 128 :: (List.replicate ((119 - msg.length % 64) % 64) 0
    ++ be8 (8 * msg.length))
  let hs := (chunkWords (bytesToWords padded)).foldl sha1Compress initH
  (hs.map wordBytes).flatten

/-- HMAC-SHA1 (RFC 2104, block size 64), the semantics of
Node's createHmac used at src/otp/index.js lines 119-121. -/
def hmacSha1 (key msg : List Nat) : List Nat :=
  let k0 := if 64 < key.length then sha1 key else key
  let kp := k0 ++ List.replicate (64 - k0.length) 0
  sha1 ((kp.map (fun b => b ^^^ 92)) ++ sha1 ((kp.map (fun b => b ^^^ 54)) ++ msg))

/-- The RFC 4648 Base32 alphabet (src/otp/index.js line 77 and line 98). -/
def B32ALPHABET : List Char := ("ABCDEFGHIJKLMNOPQRSTUVWXYZ234567").data

/-- Helper for indexOf: position of a character in a list, from offset `k`. -/
def idxOfAux : List Char → Char → Nat → Option Nat
  | [], _, _ => none
  | a :: as, c, k => if a = c then some k else idxOfAux as c (k + 1)

/-- `ALPHABET.indexOf(ch)` from base32Decode (line 82); `none` models -1. -/
def b32IndexOf (c : Char) : Option Nat := idxOfAux B32ALPHABET c 0

/-- ASCII uppercasing, the effect of `toUpperCase` on the characters relevant here. -/
def jsUpper (c : Char) : Char :=
  if 'a' ≤ c ∧ c ≤ 'z' then Char.ofNat (c.toNat - 32) else c

/-- Whitespace class of the /\s/ regex (ASCII part). -/
def isJsSpace (c : Char) : Bool :=
  c = ' ' || c = '\t' || c = '\n' || c = '\r' || c = '\x0b' || c = '\x0c'

/-- Remove a trailing run of '=' characters: the /=+$/ replace (line 78). -/
def stripTrailingEq (l : List Char) : List Char :=
  (l.reverse.dropWhile (fun c => c = '=')).reverse

/-- Input normalization of base32Decode (line 78):
uppercase, strip trailing '=', remove whitespace. -/
def b32Pre (s : String) : List Char :=
  (stripTrailingEq (s.data.map jsUpper)).filter (fun c => !(isJsSpace c))

/-- State of the base32Decode accumulator loop (lines 79-90). -/
structure DecSt where
  bits : Nat
  value : Nat
  out : List Nat
deriving DecidableEq, Repr

/-- One iteration of the base32Decode loop (lines 81-90). -/
def decStep (st : DecSt) (c : Char) : DecSt :=
  match b32IndexOf c with
  | none => st
  | some idx =>
    let v := ((st.value <<< 5) ||| idx) % M32
    let b := st.bits + 5
    if 8 ≤ b then ⟨b - 8, v, st.out ++ [(v >>> (b - 8)) &&& 255]⟩
    else ⟨b, v, st.out⟩

/-- base32Decode (src/otp/index.js lines 76-92); the returned Buffer as a byte list. -/
def base32Decode (s : String) : List Nat :=
  ((b32Pre s).foldl decStep ⟨0, 0, []⟩).out

/-- The emit loop of generateSecret (`while (bits >= 5) ...`, lines 105-108),
fuel-driven; fuel `bits` always suffices since each pass removes 5 bits. -/
def emitLoopAux : Nat → Nat → Nat → List Char → List Char × Nat
  | 0, _, bits, acc => (acc, bits)
  | fuel + 1, value, bits, acc =>
    if 5 ≤ bits then
      emitLoopAux fuel value (bits - 5)
        (acc ++ [B32ALPHABET.getD ((value >>> (bits - 5)) &&& 31) ' '])
    else (acc, bits)

/-- The emit loop of generateSecret. -/
def emitLoop (value : Nat) (bits : Nat) (acc : List Char) : List Char × Nat :=
  emitLoopAux bits value bits acc

/-- State of the generateSecret encoder loop. -/
structure EncSt where
  res : List Char
  bits : Nat
  value : Nat
deriving DecidableEq, Repr

/-- One byte of the generateSecret encoder (lines 102-109). -/
def encStep (st : EncSt) (byte : Nat) : EncSt :=
  let v := ((st.value <<< 8) ||| byte) % M32
  let p := emitLoop v (st.bits + 8) st.res
  ⟨p.1, p.2, v⟩

/-- Bit-packing Base32 encoder of generateSecret, before padding (lines 100-110). -/
def b32EncodeCore (bytes : List Nat) : List Char :=
  let st := bytes.foldl encStep ⟨[], 0, 0⟩
  if 0 < st.bits then
    st.res ++ [B32ALPHABET.getD ((st.value <<< (5 - st.bits)) &&& 31) ' ']
  else st.res

/-- Pad with '=' to a multiple of 8 characters (`while (result.length % 8 !== 0)`,
line 112; closed form of the loop). -/
def padEq (l : List Char) : List Char :=
  if l.length % 8 = 0 then l else l ++ List.replicate (8 - l.length % 8) '='

/-- The full Base32 encoder of generateSecret applied to an arbitrary byte
sequence: bit-packing through the alphabet, '='-padded to a multiple of 8. -/
def b32Encode (bytes : List Nat) : String := ⟨padEq (b32EncodeCore bytes)⟩

/-- generateSecret (lines 97-114).  The 20 cryptographically random bytes
produced by `nodeCrypto.randomBytes(20)` are an external input, passed as `raw`. -/
def generateSecret (raw : List Nat) : String := ⟨padEq (b32EncodeCore raw)⟩

/-- Whether a character is in the Base32 alphabet. -/
def validB32 (c : Char) : Bool := (b32IndexOf c).isSome

/-- Decimal digit character. -/
def digitChar (n : Nat) : Char := Char.ofNat (48 + n)

/-- Decimal digits, fuel-driven; any fuel above the number suffices. -/
def natToDigitsAux : Nat → Nat → List Char
  | 0, _ => []
  | fuel + 1, n =>
    if n < 10 then [digitChar n]
    else natToDigitsAux fuel (n / 10) ++ [digitChar (n % 10)]

/-- Decimal digits of a natural number, most significant first. -/
def natToDigits (n : Nat) : List Char := natToDigitsAux (n + 1) n

/-- `String(n)` for a nonnegative integer. -/
def natToStr (n : Nat) : String := ⟨natToDigits n⟩

/-- `String.prototype.padStart(6, '0')`. -/
def padStartSix (s : String) : String := ⟨List.replicate (6 - s.length) '0' ++ s.data⟩

/-- `secret.replace(/\s/g, '')` (line 129). -/
def stripWsStr (s : String) : String := ⟨s.data.filter (fun c => !(isJsSpace c))⟩

/-- The counter-encoding loop of totp (lines 132-137): writes `c & 0xff`
into positions 7..0, dividing by 256 each step. -/
def counterBufAux : Nat → Nat → List Nat
  | 0, _ => []
  | n + 1, c => counterBufAux n (c / 256) ++ [c &&& 255]

/-- The 8-byte counter buffer built by totp. -/
def counterBufOf (c : Nat) : List Nat := counterBufAux 8 c

/-- totp (src/otp/index.js lines 127-149). -/
def totp (secret : String) (epochMs : Nat) : String :=
  let counter := epochMs / 1000 / 30
  let keyBuf := base32Decode (stripWsStr secret)
  let cbuf := counterBufOf counter
  let hm := hmacSha1 keyBuf cbuf
  let offset := (hm.getD 19 0) &&& 15
  let code := ((((hm.getD offset 0) &&& 127) <<< 24) |||
               (((hm.getD (offset + 1) 0) &&& 255) <<< 16) |||
               (((hm.getD (offset + 2) 0) &&& 255) <<< 8) |||
               ((hm.getD (offset + 3) 0) &&& 255)) % 1000000
  padStartSix (natToStr code)

/-- The RFC 6238/4226 computation exactly as the specification words it
(spec §4.3, claim C1): counter window, 8-byte big-endian counter, decoded key,
HMAC-SHA1 digest, dynamic truncation, modulo 10^6, zero-padded to 6 digits. -/
def totpSpec (s : String) (t : Nat) : String :=
  let counter := t / 1000 / 30
  let counterBytes := be8 counter
  let key := base32Decode s
  let digest := hmacSha1 key counterBytes
  let offset := (digest.getD 19 0) &&& 15
  let value := (((digest.getD offset 0) &&& 127) <<< 24) |||
               ((digest.getD (offset + 1) 0) <<< 16) |||
               ((digest.getD (offset + 2) 0) <<< 8) |||
               (digest.getD (offset + 3) 0)
  padStartSix (natToStr (value % 1000000))

/-- Value of a byte list read as a big-endian base-256 number. -/
def byteVal (l : List Nat) : Nat := l.foldl (fun a b => a * 256 + b) 0

/-- Alphabet index of a character (0 for characters outside the alphabet). -/
def charIdx (c : Char) : Nat := (b32IndexOf c).getD 0

/-- Value of a character list read as a big-endian base-32 number of indices. -/
def idxVal (l : List Char) : Nat := l.foldl (fun a c => a * 32 + charIdx c) 0

/-- A vault entry (spec §3). -/
structure Entry where
  label : String
  issuer : String
  secret : String
deriving DecidableEq, Repr

/-- A vault (spec §3, §6). -/
structure Vault where
  name : String
  created : String
  entries : List Entry
deriving DecidableEq, Repr

/-- A parsed wire message as the receive handler inspects it (lines 428-429):
the `v` and `type` fields may be absent (`none`); `v` is an integer when present. -/
structure WireMsg where
  v : Option Int
  type : Option String
  vault : Vault
deriving DecidableEq, Repr

/-- The protocol version constant (line 58). -/
def PROTO_VER : Int := 1

/-- Observable actions of the receive data handler, in program order:
setting the latch (line 431), persisting the vault (line 443),
writing the ack (line 448). -/
inductive REvent where
  | latchSet
  | persisted (v : Vault)
  | acked
deriving DecidableEq, Repr

/-- Receive-session state: the `received` latch (line 418). -/
structure RState where
  received : Bool
deriving DecidableEq, Repr

/-- Structural validity test of an inbound payload: parses, `type` is
"vault_share" and `v` is exactly the protocol version (lines 428-429).
`none` models a payload JSON.parse throws on. -/
def isValidShare (raw : Option WireMsg) : Bool :=
  match raw with
  | none => false
  | some m => m.type == some ("vault_share") && m.v == some PROTO_VER

/-- The receive data handler (lines 425-453): latch check, parse, version/type
check, then latch set followed by persistence and acknowledgement. -/
def recvData (st : RState) (raw : Option WireMsg) : RState × List REvent :=
  if st.received then (st, [])
  else
    match raw with
    | none => (st, [])
    | some msg =>
      if msg.type ≠ some ("vault_share") ∨ msg.v ≠ some PROTO_VER then (st, [])
      else (⟨true⟩, [REvent.latchSet, REvent.persisted msg.vault, REvent.acked])

/-- Run the receive handler over a sequence of payload arrivals (any
interleaving across connections, delivered by the single-threaded event loop). -/
def runRecvAux : RState → List REvent → List (Option WireMsg) → RState × List REvent
  | st, evs, [] => (st, evs)
  | st, evs, m :: ms => runRecvAux (recvData st m).1 (evs ++ (recvData st m).2) ms

/-- A whole receive session starting with the latch unset. -/
def runReceiveSession (msgs : List (Option WireMsg)) : RState × List REvent :=
  runRecvAux ⟨false⟩ [] msgs

/-- The event trace a session should produce: the first structurally valid
payload is accepted (latch, persist, ack), everything else is ignored. -/
def expectedEvents (msgs : List (Option WireMsg)) : List REvent :=
  match msgs.find? isValidShare with
  | some (some m) => [REvent.latchSet, REvent.persisted m.vault, REvent.acked]
  | _ => []

/-- Recognize a persistence action. -/
def isPersistEvent : REvent → Bool
  | REvent.persisted _ => true
  | _ => false

/-- Events driving a receive session including the 60-second timer (line 466). -/
inductive SessEvent where
  | data (raw : Option WireMsg)
  | timeout
deriving DecidableEq, Repr

/-- Session state with outcome: `exitCode = some 0` on success (line 452),
`some 1` on timeout (line 469). -/
structure SessState where
  received : Bool
  exitCode : Option Nat
deriving DecidableEq, Repr

/-- The receive-session wait window in milliseconds (line 471). -/
def RECEIVE_TIMEOUT_MS : Nat := 60000

/-- One event of the receive session: data arrivals accept the first valid
share and exit 0; the timer callback exits 1 only when the latch is unset
(`if (!received)`, line 467). An exited process absorbs all later events. -/
def sessStep (st : SessState) (e : SessEvent) : SessState :=
  if st.exitCode.isSome then st
  else
    match e with
    | SessEvent.data raw =>
      if st.received then st
      else if isValidShare raw then ⟨true, some 0⟩ else st
    | SessEvent.timeout => if st.received then st else ⟨st.received, some 1⟩

/-- Run a receive session over its event sequence. -/
def runSess (evs : List SessEvent) : SessState := evs.foldl sessStep ⟨false, none⟩

/-- Whether an event is the arrival of a structurally valid share. -/
def hasValidData (e : SessEvent) : Bool :=
  match e with
  | SessEvent.data raw => isValidShare raw
  | SessEvent.timeout => false

/-- The topic seed string built by the share session (line 341). -/
def shareTopicSeed (name : String) : String :=
  "peerotp:vault:" ++ name ++ ":intercom-vibe-2025"

/-- The share session's topic (lines 341-342); `h` is the external 32-byte
`crypto.hash`. -/
def shareTopic (h : String → List Nat) (name : String) : List Nat :=
  h (shareTopicSeed name)

/-- The topic seed the receive session builds from the vault name when no
--topic argument is given (line 412). -/
def receiveNameTopicSeed (vaultName : String) : String :=
  "peerotp:vault:" ++ vaultName ++ ":intercom-vibe-2025"

/-- The receive session's name-based topic (lines 412-413). -/
def receiveNameTopic (h : String → List Nat) (vaultName : String) : List Nat :=
  h (receiveNameTopicSeed vaultName)

/-- The seed built from a --topic argument that is not 64 characters (line 407). -/
def receiveCustomTopicSeed (t : String) : String :=
  "peerotp:vault:" ++ t ++ ":intercom-vibe-2025"

/-- Lowercase hex digits (b4a's hex encoding). -/
def hexDigitChars : List Char := ("0123456789abcdef").data

/-- Value of one hex digit character, case-insensitive. -/
def hexValOf (c : Char) : Option Nat :=
  if '0' ≤ c ∧ c ≤ '9' then some (c.toNat - 48)
  else if 'a' ≤ c ∧ c ≤ 'f' then some (c.toNat - 87)
  else if 'A' ≤ c ∧ c ≤ 'F' then some (c.toNat - 55)
  else none

/-- Hex-decode successive character pairs into bytes (b4a.from(str, 'hex')). -/
def hexPairs : List Char → List Nat
  | a :: b :: rest =>
    (match hexValOf a, hexValOf b with
     | some x, some y => (x * 16 + y) :: hexPairs rest
     | _, _ => [])
  | _ => []

/-- Buffer from a hex string. -/
def hexDecode (s : String) : List Nat := hexPairs s.data

/-- Hex encoding of one byte, lowercase. -/
def hexEncByte (b : Nat) : List Char :=
  [hexDigitChars.getD (b / 16) ' ', hexDigitChars.getD (b % 16) ' ']

/-- b4a.toString(buf, 'hex'). -/
def hexEncode (bs : List Nat) : String := ⟨(bs.map hexEncByte).flatten⟩

/-- The receive session's topic from a --topic argument (lines 405-408):
used as-is when exactly 64 characters, otherwise the argument is hashed
as if it were a vault name; the resulting hex string is decoded to bytes. -/
def receiveTopicBuf (h : String → List Nat) (customTopic : String) : List Nat :=
  let full := if customTopic.length = 64 then customTopic
              else hexEncode (h (receiveCustomTopicSeed customTopic))
  hexDecode full

example : sha1 [] =
    [218, 57, 163, 238, 94, 107, 75, 13, 50, 85, 191, 239, 149, 96, 24, 144,
     175, 216, 7, 9] := by decide

example : sha1 [97, 98, 99] =
    [169, 153, 62, 54, 71, 6, 129, 106, 186, 62, 37, 113, 120, 80, 194, 108,
     156, 208, 216, 157] := by decide

example : totp ("GEZDGNBVGY3TQOJQGEZDGNBVGY3TQOJQ") 59000 = "287082" := by decide

example : base32Decode ("JBSWY3DPEHPK3PXP") = [72, 101, 108, 108, 111, 33, 222, 173, 190, 239] := by
  decide

example : generateSecret [72, 101, 108, 108, 111, 33, 222, 173, 190, 239] =
    "JBSWY3DPEHPK3PXP" := by decide

/-! ## Receive-session state machine: helper lemmas -/

theorem recvData_of_received (st : RState) (raw : Option WireMsg)
    (h : st.received = true) : recvData st raw = (st, []) := by
  simp [recvData, h]

theorem runRecvAux_of_received (msgs : List (Option WireMsg)) (st : RState)
    (evs : List REvent) (h : st.received = true) :
    runRecvAux st evs msgs = (st, evs) := by
  induction msgs generalizing evs with
  | nil => rfl
  | cons m ms ih => simp [runRecvAux, recvData_of_received st m h, ih]

theorem recvData_of_invalid (st : RState) (raw : Option WireMsg)
    (h2 : isValidShare raw = false) : recvData st raw = (st, []) := by
  cases hr : st.received with
  | true => simp [recvData, hr]
  | false =>
    cases raw with
    | none => simp [recvData, hr]
    | some m =>
      have hcond : m.type ≠ some ("vault_share") ∨ m.v ≠ some PROTO_VER := by
        by_contra hc
        push_neg at hc
        simp [isValidShare, hc.1, hc.2] at h2
      simp [recvData, hr, hcond]

theorem recvData_of_valid (st : RState) (m : WireMsg) (h1 : st.received = false)
    (h2 : isValidShare (some m) = true) :
    recvData st (some m) =
      (⟨true⟩, [REvent.latchSet, REvent.persisted m.vault, REvent.acked]) := by
  simp only [isValidShare, Bool.and_eq_true, beq_iff_eq] at h2
  simp [recvData, h1, h2.1, h2.2]

theorem runRecvAux_characterization (msgs : List (Option WireMsg)) (evs : List REvent) :
    runRecvAux ⟨false⟩ evs msgs =
      ((⟨(msgs.find? isValidShare).isSome⟩ : RState), evs ++ expectedEvents msgs) := by
  induction msgs generalizing evs with
  | nil => simp [runRecvAux, expectedEvents]
  | cons m ms ih =>
    cases hm : isValidShare m with
    | false =>
      have h := recvData_of_invalid ⟨false⟩ m hm
      simp [runRecvAux, h, ih, expectedEvents, List.find?, hm]
    | true =>
      cases m with
      | none => simp [isValidShare] at hm
      | some wm =>
        have h := recvData_of_valid ⟨false⟩ wm rfl hm
        simp [runRecvAux, h, runRecvAux_of_received, expectedEvents, List.find?, hm]

/-- Claim C2: in every receive session, over any sequence of payload arrivals
from any number of peer connections in any order, the first structurally valid
ShareMessage sets the `received` latch exactly once; the latch-set action
precedes the persistence and acknowledgement actions in the handler's trace;
every payload after the latch is set is ignored (the trace is exactly empty or
latch-persist-ack once); and at most one vault is persisted per session. -/
theorem receive_latch_at_most_once (msgs : List (Option WireMsg)) :
    (runReceiveSession msgs).2 = expectedEvents msgs ∧
    (runReceiveSession msgs).1.received = (msgs.find? isValidShare).isSome ∧
    (runReceiveSession msgs).2.countP isPersistEvent ≤ 1 ∧
    (runReceiveSession msgs).2.countP (fun e => e == REvent.latchSet) ≤ 1 ∧
    ((runReceiveSession msgs).2 = [] ∨
      (runReceiveSession msgs).2.head? = some REvent.latchSet) := by
  have h := runRecvAux_characterization msgs []
  rw [runReceiveSession, h]
  refine ⟨by simp, by simp, ?_, ?_, ?_⟩ <;>
    · simp only [expectedEvents]
      rcases hf : msgs.find? isValidShare with _ | mm
      · simp
      · cases mm <;> simp [isPersistEvent]

/-- Claim C6: an inbound payload that fails to parse, or whose type field is
not "vault_share", or whose v field is missing or not exactly 1, is silently
ignored by the receive handler: the state is unchanged (latch stays unset),
no persistence or acknowledgement action is emitted, and the session keeps
waiting. -/
theorem invalid_payload_ignored (st : RState) (raw : Option WireMsg)
    (h1 : st.received = false) (h2 : isValidShare raw = false) :
    recvData st raw = (st, []) ∧ (recvData st raw).1.received = false := by
  refine ⟨recvData_of_invalid st raw h2, ?_⟩
  rw [recvData_of_invalid st raw h2]
  exact h1

theorem invalid_payload_ignored_witness :
    isValidShare (some ⟨ some 2, some ("vault_share"), ⟨ "team", "c", [] ⟩ ⟩) = false ∧
    recvData ⟨false⟩ (some ⟨ some 2, some ("vault_share"), ⟨ "team", "c", [] ⟩ ⟩) =
      (⟨false⟩, []) := by
  refine ⟨by decide, ?_⟩
  exact (invalid_payload_ignored ⟨false⟩
    (some ⟨ some 2, some ("vault_share"), ⟨ "team", "c", [] ⟩ ⟩) rfl (by decide)).1

/-! ## Timeout machine: helper lemmas -/

theorem sessStep_of_exited (st : SessState) (e : SessEvent)
    (h : st.exitCode.isSome) : sessStep st e = st := by
  simp [sessStep, h]

theorem foldl_sessStep_of_exited (evs : List SessEvent) (st : SessState)
    (h : st.exitCode.isSome) : evs.foldl sessStep st = st := by
  induction evs with
  | nil => rfl
  | cons e es ih => simp [sessStep_of_exited st e h, ih]

theorem foldl_sessStep_no_valid (evs : List SessEvent)
    (h : ∀ e ∈ evs, hasValidData e = false) (st : SessState)
    (hst : st = ⟨false, none⟩ ∨ st = ⟨false, some 1⟩) :
    evs.foldl sessStep st = ⟨false, none⟩ ∨ evs.foldl sessStep st = ⟨false, some 1⟩ := by
  induction evs generalizing st with
  | nil => simpa using hst
  | cons e es ih =>
    have he : hasValidData e = false := h e (by simp)
    have hrest : ∀ x ∈ es, hasValidData x = false := fun x hx => h x (by simp [hx])
    rcases hst with hst | hst <;> subst hst
    · cases e with
      | data raw =>
        have hv : isValidShare raw = false := by simpa [hasValidData] using he
        exact ih hrest _ (Or.inl (by simp [sessStep, hv]))
      | timeout => exact ih hrest _ (Or.inr (by simp [sessStep]))
    · rw [List.foldl_cons, sessStep_of_exited _ _ (by simp)]
      exact ih hrest _ (Or.inr rfl)

theorem foldl_sessStep_quiet (evs : List SessEvent)
    (h : ∀ e ∈ evs, hasValidData e = false ∧ e ≠ SessEvent.timeout) :
    evs.foldl sessStep ⟨false, none⟩ = ⟨false, none⟩ := by
  induction evs with
  | nil => rfl
  | cons e es ih =>
    have he := h e (by simp)
    have hrest : ∀ x ∈ es, hasValidData x = false ∧ x ≠ SessEvent.timeout :=
      fun x hx => h x (by simp [hx])
    cases e with
    | data raw =>
      have hv : isValidShare raw = false := by simpa [hasValidData] using he.1
      rw [List.foldl_cons]
      have : sessStep ⟨false, none⟩ (SessEvent.data raw) = ⟨false, none⟩ := by
        simp [sessStep, hv]
      rw [this]
      exact ih hrest
    | timeout => exact absurd rfl he.2

/-- Claim C7: the receive session's wait window is 60 seconds; if the timer
fires with no valid ShareMessage having arrived before it, the session ends in
the timed-out state with exit code 1, distinguishable from success; a session
that accepts a vault ends with the success exit code 0; and the timeout
callback never fires the non-success path once the latch is set. -/
theorem receive_timeout_semantics :
    RECEIVE_TIMEOUT_MS = 60000 ∧
    (∀ pre post : List SessEvent, (∀ e ∈ pre, hasValidData e = false) →
      (runSess (pre ++ SessEvent.timeout :: post)).exitCode = some 1) ∧
    (∀ (pre : List SessEvent) (raw : Option WireMsg) (post : List SessEvent),
      isValidShare raw = true →
      (∀ e ∈ pre, hasValidData e = false ∧ e ≠ SessEvent.timeout) →
      (runSess (pre ++ SessEvent.data raw :: post)).exitCode = some 0) ∧
    (∀ st : SessState, st.received = true → sessStep st SessEvent.timeout = st) := by
  refine ⟨rfl, ?_, ?_, ?_⟩
  · intro pre post hpre
    rw [runSess, List.foldl_append]
    rcases foldl_sessStep_no_valid pre hpre ⟨false, none⟩ (Or.inl rfl) with h | h <;>
      rw [h] <;> rw [List.foldl_cons]
    · have : sessStep ⟨false, none⟩ SessEvent.timeout = ⟨false, some 1⟩ := by
        simp [sessStep]
      rw [this, foldl_sessStep_of_exited post _ (by simp)]
    · rw [sessStep_of_exited _ _ (by simp), foldl_sessStep_of_exited post _ (by simp)]
  · intro pre raw post hv hpre
    rw [runSess, List.foldl_append, foldl_sessStep_quiet pre hpre, List.foldl_cons]
    have : sessStep ⟨false, none⟩ (SessEvent.data raw) = ⟨true, some 0⟩ := by
      simp [sessStep, hv]
    rw [this, foldl_sessStep_of_exited post _ (by simp)]
  · intro st hst
    by_cases h : st.exitCode.isSome
    · exact sessStep_of_exited st _ h
    · simp [sessStep, h, hst]

theorem receive_timeout_semantics_witness :
    (runSess [SessEvent.data none, SessEvent.timeout]).exitCode = some 1 ∧
    (runSess [SessEvent.data none,
      SessEvent.data (some ⟨ some 1, some ("vault_share"), ⟨ "team", "c", [] ⟩ ⟩),
      SessEvent.timeout]).exitCode = some 0 := by
  constructor
  · exact receive_timeout_semantics.2.1 [SessEvent.data none] [] (by decide)
  · exact receive_timeout_semantics.2.2.1 [SessEvent.data none]
      (some ⟨ some 1, some ("vault_share"), ⟨ "team", "c", [] ⟩ ⟩)
      [SessEvent.timeout] (by decide) (by decide)

/-! ## Topic derivation -/

/-- Claim C5: topic derivation is a deterministic pure function of the vault
name producing exactly 32 bytes (given the external 32-byte hash), and the
share session's derivation and the receive session's name-based derivation
build the same salted seed string and hash it identically, so two processes
deriving from the same name obtain byte-identical topics. -/
theorem topic_derivation_consistent (h : String → List Nat)
    (hlen : ∀ x, (h x).length = 32) (name : String) :
    shareTopic h name = receiveNameTopic h name ∧
    (shareTopic h name).length = 32 ∧
    shareTopic h name = h ("peerotp:vault:" ++ name ++ ":intercom-vibe-2025") :=
  ⟨rfl, hlen _, rfl⟩

theorem topic_derivation_consistent_witness :
    (∀ x : String, ((fun _ : String => List.replicate 32 0) x).length = 32) ∧
    shareTopic (fun _ : String => List.replicate 32 0) ("myteam") =
      receiveNameTopic (fun _ : String => List.replicate 32 0) ("myteam") := by
  have hlen : ∀ x : String, ((fun _ : String => List.replicate 32 0) x).length = 32 :=
    fun _ => by simp
  exact ⟨hlen, (topic_derivation_consistent _ hlen ("myteam")).1⟩

/-! ## Hex codec helper lemmas (for topic handling) -/

theorem hexValOf_digit : ∀ i, i < 16 → hexValOf (hexDigitChars.getD i ' ') = some i := by
  decide

theorem hexPairs_hexEncode (bs : List Nat) (hb : ∀ b ∈ bs, b < 256) :
    hexPairs ((bs.map hexEncByte).flatten) = bs := by
  induction bs with
  | nil => rfl
  | cons b rest ih =>
    have hb1 : b < 256 := hb b (by simp)
    have h1 := hexValOf_digit (b / 16) (by omega)
    have h2 := hexValOf_digit (b % 16) (by omega)
    have hrest : ∀ x ∈ rest, x < 256 := fun x hx => hb x (by simp [hx])
    have hb2 : b / 16 * 16 + b % 16 = b := by omega
    simp only [List.map_cons, List.flatten_cons, hexEncByte, List.cons_append,
      List.append_eq, List.nil_append, hexPairs, h1, h2, hb2, ih hrest]

theorem hexDecode_hexEncode (bs : List Nat) (hb : ∀ b ∈ bs, b < 256) :
    hexDecode (hexEncode bs) = bs := hexPairs_hexEncode bs hb

theorem seed_inj (a b : String) (hne : a ≠ b) :
    receiveCustomTopicSeed a ≠ shareTopicSeed b := by
  intro hEq
  apply hne
  apply String.ext
  have h2 := congrArg String.data hEq
  simp only [receiveCustomTopicSeed, shareTopicSeed, String.data_append] at h2
  have h3 := List.append_cancel_right h2
  exact List.append_cancel_left h3

/-- Claim C10 (amended): a --topic argument is used directly (hex-decoded) as
the rendezvous topic exactly when it is 64 characters long; for any other
length the argument is hashed as if it were a vault name with the same salted
template; the resulting topic coincides with the share session's topic when
the argument equals the vault name, and differs whenever the argument differs
from the vault name and the hash outputs of the two (distinct) seeds differ,
as for an effectively collision-free hash. -/
theorem receive_topic_dispatch (h : String → List Nat) (t name : String)
    (hbytes : ∀ x, ∀ b ∈ h x, b < 256) :
    (t.length = 64 → receiveTopicBuf h t = hexDecode t) ∧
    (t.length ≠ 64 → receiveTopicBuf h t = h (receiveCustomTopicSeed t)) ∧
    (t.length ≠ 64 → t ≠ name →
      receiveCustomTopicSeed t ≠ shareTopicSeed name ∧
      (h (receiveCustomTopicSeed t) ≠ h (shareTopicSeed name) →
        receiveTopicBuf h t ≠ shareTopic h name)) := by
  refine ⟨fun h64 => by simp [receiveTopicBuf, h64], fun h64 => ?_, fun h64 hne => ?_⟩
  · simp only [receiveTopicBuf, h64, if_false]
    exact hexDecode_hexEncode _ (hbytes _)
  · refine ⟨seed_inj t name hne, fun hdiff hEq => ?_⟩
    apply hdiff
    have : receiveTopicBuf h t = h (receiveCustomTopicSeed t) := by
      simp only [receiveTopicBuf, h64, if_false]
      exact hexDecode_hexEncode _ (hbytes _)
    rw [this] at hEq
    exact hEq

theorem receive_topic_dispatch_witness :
    (("deadbeefdeadbeef" : String).length ≠ 64) ∧
    receiveTopicBuf (fun s => [s.length % 256]) ("deadbeefdeadbeef") =
      (fun s : String => [s.length % 256]) (receiveCustomTopicSeed ("deadbeefdeadbeef")) ∧
    receiveTopicBuf (fun s => [s.length % 256]) ("deadbeefdeadbeef") ≠
      shareTopic (fun s : String => [s.length % 256]) ("default") := by
  have hbytes : ∀ x : String, ∀ b ∈ (fun s : String => [s.length % 256]) x, b < 256 := by
    intro x b hb
    simp at hb
    omega
  refine ⟨by decide, ?_, ?_⟩
  · exact (receive_topic_dispatch (fun s => [s.length % 256]) ("deadbeefdeadbeef")
      ("default") hbytes).2.1 (by decide)
  · exact ((receive_topic_dispatch (fun s => [s.length % 256]) ("deadbeefdeadbeef")
      ("default") hbytes).2.2 (by decide) (by decide)).2 (by decide)

/-- Counterexample to claim C10 as stated: for the non-64-character argument
"default" and the vault of the same name, the receive session's derived topic
is byte-identical to the share session's topic (both hash the same seed), so
the claimed "differs from the share session's topic" fails; shown here with a
concrete stand-in hash, and it holds for every hash function since the two
seeds coincide. -/
theorem receive_topic_name_counterexample :
    (("default" : String).length ≠ 64) ∧
    receiveTopicBuf (fun s => [s.length % 256]) ("default") =
      shareTopic (fun s => [s.length % 256]) ("default") := by
  constructor
  · decide
  · decide

/-! ## Code rotation across windows (claim C8) -/

/-- Claim C8 (amended): for every secret and all times in the same 30-second
window the produced codes are identical; codes in adjacent windows are not
guaranteed to differ (see the counterexample), though they generically do. -/
theorem totp_constant_within_window (s : String) (t1 t2 : Nat)
    (hw : t1 / 30000 = t2 / 30000) : totp s t1 = totp s t2 := by
  unfold totp
  have h : t1 / 1000 / 30 = t2 / 1000 / 30 := by
    rw [Nat.div_div_eq_div_mul, Nat.div_div_eq_div_mul]
    exact hw
  rw [h]

theorem totp_constant_within_window_witness :
    (0 : Nat) / 30000 = 29999 / 30000 ∧
    totp ("GEZDGNBVGY3TQOJQGEZDGNBVGY3TQOJQ") 0 =
      totp ("GEZDGNBVGY3TQOJQGEZDGNBVGY3TQOJQ") 29999 :=
  ⟨by decide, totp_constant_within_window _ 0 29999 (by decide)⟩

/-- Counterexample to claim C8's boundary half: for the secret "AA" the two
adjacent 30-second windows 418590 and 418591 (epoch milliseconds 12557700000
and 12557730000) produce the same 6-digit code, so the code does not change
at every window boundary. -/
theorem totp_adjacent_window_collision :
    12557700000 / 30000 + 1 = 12557730000 / 30000 ∧
    totp ("AA") 12557700000 = totp ("AA") 12557730000 :=
  ⟨by decide, by decide⟩

/-! ## Bit-arithmetic bridges -/

theorem pow2_32_eq : (2 : Nat) ^ 32 = M32 := by norm_num [M32]

theorem and255_mod (x : Nat) : x &&& 255 = x % 256 := by
  have h := Nat.and_pow_two_sub_one_eq_mod x 8
  norm_num at h
  exact h

theorem and31_mod (x : Nat) : x &&& 31 = x % 32 := by
  have h := Nat.and_pow_two_sub_one_eq_mod x 5
  norm_num at h
  exact h

theorem shl_or_small (x i k : Nat) (hi : i < 2 ^ k) : (x <<< k) ||| i = x * 2 ^ k + i := by
  rw [Nat.shiftLeft_eq]
  calc x * 2 ^ k ||| i = 2 ^ k * x ||| i := by rw [Nat.mul_comm]
    _ = 2 ^ k * x + i := (Nat.mul_add_lt_is_or hi x).symm
    _ = x * 2 ^ k + i := by ring

theorem mod_M32_mod_pow (x k : Nat) (hk : k ≤ 32) : (x % M32) % 2 ^ k = x % 2 ^ k := by
  rw [← pow2_32_eq]
  exact Nat.mod_mod_of_dvd x (pow_dvd_pow 2 hk)

theorem idxOfAux_bound : ∀ (l : List Char) (c : Char) (k i : Nat),
    idxOfAux l c k = some i → i < k + l.length := by
  intro l
  induction l with
  | nil => intro c k i h; simp [idxOfAux] at h
  | cons a as ih =>
    intro c k i h
    by_cases hac : a = c
    · simp [idxOfAux, hac] at h
      simp [List.length_cons]
      omega
    · simp only [idxOfAux, hac, if_false] at h
      have := ih c (k + 1) i h
      simp [List.length_cons]
      omega

theorem b32IndexOf_lt32 (c : Char) (i : Nat) (h : b32IndexOf c = some i) : i < 32 := by
  have h1 := idxOfAux_bound B32ALPHABET c 0 i h
  have h2 : B32ALPHABET.length = 32 := by decide
  omega

theorem idxOfAux_mem : ∀ (l : List Char) (c : Char) (k i : Nat),
    idxOfAux l c k = some i → c ∈ l := by
  intro l
  induction l with
  | nil => intro c k i h; simp [idxOfAux] at h
  | cons a as ih =>
    intro c k i h
    by_cases hac : a = c
    · simp [hac]
    · simp only [idxOfAux, hac, if_false] at h
      exact List.mem_cons_of_mem a (ih c (k + 1) i h)

theorem b32IndexOf_mem (c : Char) (h : (b32IndexOf c).isSome) : c ∈ B32ALPHABET := by
  cases hi : b32IndexOf c with
  | none => rw [hi] at h; simp at h
  | some i => exact idxOfAux_mem B32ALPHABET c 0 i hi

theorem alpha_getD_index : ∀ j, j < 32 → b32IndexOf (B32ALPHABET.getD j ' ') = some j := by
  decide

theorem alpha_upper_fixed : ∀ c ∈ B32ALPHABET, jsUpper c = c := by decide

theorem space_char_facts : ∀ c : Char, isJsSpace c = true → jsUpper c = c ∧ b32IndexOf c = none := by
  intro c h
  simp only [isJsSpace, Bool.or_eq_true, decide_eq_true_eq] at h
  rcases h with ((((h | h) | h) | h) | h) | h <;> subst h <;> exact ⟨by decide, by decide⟩

/-! ## Effective-character-stream normalization of base32Decode -/

theorem foldl_decStep_filter (l : List Char) (st : DecSt) :
    l.foldl decStep st = (l.filter validB32).foldl decStep st := by
  induction l generalizing st with
  | nil => rfl
  | cons c cs ih =>
    cases hc : b32IndexOf c with
    | none =>
      have hst : decStep st c = st := by simp [decStep, hc]
      have hf : validB32 c = false := by simp [validB32, hc]
      simp [List.foldl_cons, hst, List.filter_cons, hf, ih]
    | some i =>
      have hf : validB32 c = true := by simp [validB32, hc]
      simp [List.foldl_cons, List.filter_cons, hf, ih]

theorem filter_valid_dropWhileEq (l : List Char) :
    (l.dropWhile (fun c => c = '=')).filter validB32 = l.filter validB32 := by
  induction l with
  | nil => rfl
  | cons c cs ih =>
    by_cases hc : c = '='
    · subst hc
      have hv : validB32 '=' = false := by decide
      simp [List.dropWhile_cons, List.filter_cons, hv, ih]
    · simp [List.dropWhile_cons, hc, List.filter_cons]

theorem filter_valid_stripTrailing (l : List Char) :
    (stripTrailingEq l).filter validB32 = l.filter validB32 := by
  unfold stripTrailingEq
  rw [List.filter_reverse, filter_valid_dropWhileEq, List.filter_reverse,
    List.reverse_reverse]

theorem filter_valid_removeWs (l : List Char) :
    (l.filter (fun c => !(isJsSpace c))).filter validB32 = l.filter validB32 := by
  induction l with
  | nil => rfl
  | cons c cs ih =>
    by_cases hs : isJsSpace c
    · have hval : validB32 c = false := by
        simp [validB32, (space_char_facts c hs).2]
      simp [List.filter_cons, hs, hval, ih]
    · simp [List.filter_cons, hs, ih]

theorem base32Decode_eff (s : String) :
    base32Decode s =
      (((s.data.map jsUpper).filter validB32).foldl decStep ⟨0, 0, []⟩).out := by
  unfold base32Decode b32Pre
  rw [foldl_decStep_filter, filter_valid_removeWs, filter_valid_stripTrailing]

theorem filter_valid_map_upper_ws (l : List Char) :
    (((l.filter (fun c => !(isJsSpace c))).map jsUpper)).filter validB32 =
      (l.map jsUpper).filter validB32 := by
  induction l with
  | nil => rfl
  | cons c cs ih =>
    by_cases hs : isJsSpace c
    · have hfacts := space_char_facts c hs
      have hval : validB32 (jsUpper c) = false := by
        rw [hfacts.1]
        simp [validB32, hfacts.2]
      simp [List.filter_cons, hs, List.map_cons, hval, ih]
    · simp [List.filter_cons, hs, List.map_cons, ih]

theorem base32Decode_stripWs (s : String) :
    base32Decode (stripWsStr s) = base32Decode s := by
  rw [base32Decode_eff, base32Decode_eff]
  have hdata : (stripWsStr s).data = s.data.filter (fun c => !(isJsSpace c)) := rfl
  rw [hdata, filter_valid_map_upper_ws]

/-! ## Positional value lemmas -/

theorem foldl_mul_add_init {α : Type} (m : Nat) (g : α → Nat) (l : List α) :
    ∀ a : Nat, l.foldl (fun acc x => acc * m + g x) a =
      a * m ^ l.length + l.foldl (fun acc x => acc * m + g x) 0 := by
  induction l with
  | nil => intro a; simp
  | cons x xs ih =>
    intro a
    rw [List.foldl_cons, List.foldl_cons, ih (a * m + g x), ih (0 * m + g x)]
    simp only [List.length_cons]
    ring

theorem byteVal_cons (b : Nat) (l : List Nat) :
    byteVal (b :: l) = b * 256 ^ l.length + byteVal l := by
  unfold byteVal
  rw [List.foldl_cons]
  have h := foldl_mul_add_init 256 (fun x : Nat => x) l (0 * 256 + b)
  simpa using h

theorem byteVal_append_one (l : List Nat) (b : Nat) :
    byteVal (l ++ [b]) = byteVal l * 256 + b := by
  unfold byteVal
  rw [List.foldl_append]
  rfl

theorem idxVal_cons (c : Char) (l : List Char) :
    idxVal (c :: l) = charIdx c * 32 ^ l.length + idxVal l := by
  unfold idxVal
  rw [List.foldl_cons]
  have h := foldl_mul_add_init 32 charIdx l (0 * 32 + charIdx c)
  simpa using h

theorem idxVal_append (l1 l2 : List Char) :
    idxVal (l1 ++ l2) = idxVal l1 * 32 ^ l2.length + idxVal l2 := by
  unfold idxVal
  rw [List.foldl_append]
  exact foldl_mul_add_init 32 charIdx l2 (idxVal l1)

theorem byteVal_lt_pow (l : List Nat) (h : ∀ b ∈ l, b < 256) :
    byteVal l < 256 ^ l.length := by
  induction l with
  | nil => simp [byteVal]
  | cons b r ih =>
    rw [byteVal_cons]
    have hb : b < 256 := h b (by simp)
    have hr : byteVal r < 256 ^ r.length := ih (fun x hx => h x (by simp [hx]))
    calc b * 256 ^ r.length + byteVal r < b * 256 ^ r.length + 256 ^ r.length := by omega
      _ = (b + 1) * 256 ^ r.length := by ring
      _ ≤ 256 * 256 ^ r.length := Nat.mul_le_mul_right _ (by omega)
      _ = 256 ^ (b :: r).length := by rw [List.length_cons, pow_succ]; ring

theorem byteVal_inj : ∀ (x y : List Nat), x.length = y.length →
    (∀ a ∈ x, a < 256) → (∀ a ∈ y, a < 256) → byteVal x = byteVal y → x = y := by
  intro x
  induction x with
  | nil =>
    intro y hlen _ _ _
    cases y with
    | nil => rfl
    | cons b bs => simp at hlen
  | cons a as ih =>
    intro y hlen hx hy hv
    cases y with
    | nil => simp at hlen
    | cons b bs =>
      have hlen' : as.length = bs.length := by simpa using hlen
      rw [byteVal_cons, byteVal_cons, hlen'] at hv
      have hA : byteVal as < 256 ^ bs.length := by
        rw [← hlen']
        exact byteVal_lt_pow as (fun u hu => hx u (by simp [hu]))
      have hB : byteVal bs < 256 ^ bs.length := byteVal_lt_pow bs (fun u hu => hy u (by simp [hu]))
      have hXpos : 0 < (256 : Nat) ^ bs.length := pow_pos (by norm_num) _
      have ha2 : (a * 256 ^ bs.length + byteVal as) / 256 ^ bs.length = a := by
        rw [Nat.add_comm, Nat.mul_comm, Nat.add_mul_div_left _ _ hXpos,
          Nat.div_eq_of_lt hA]
        omega
      have hb2 : (b * 256 ^ bs.length + byteVal bs) / 256 ^ bs.length = b := by
        rw [Nat.add_comm, Nat.mul_comm, Nat.add_mul_div_left _ _ hXpos,
          Nat.div_eq_of_lt hB]
        omega
      rw [hv, hb2] at ha2
      subst ha2
      have hAB : byteVal as = byteVal bs := Nat.add_left_cancel hv
      rw [ih bs hlen' (fun u hu => hx u (by simp [hu])) (fun u hu => hy u (by simp [hu])) hAB]

/-! ## Decoder loop invariant -/

theorem decStep_of_valid (st : DecSt) (c : Char) (i : Nat) (hc : b32IndexOf c = some i)
    (hbits : st.bits ≤ 7) (hout : ∀ x ∈ st.out, x < 256) :
    (decStep st c).bits = (st.bits + 5) % 8 ∧
    (decStep st c).out.length = st.out.length + (st.bits + 5) / 8 ∧
    (∀ x ∈ (decStep st c).out, x < 256) ∧
    byteVal (decStep st c).out * 2 ^ ((st.bits + 5) % 8) +
        (decStep st c).value % 2 ^ ((st.bits + 5) % 8) =
      (byteVal st.out * 2 ^ st.bits + st.value % 2 ^ st.bits) * 32 + i := by
  have hi : i < 32 := b32IndexOf_lt32 c i hc
  have hveq : ∀ k : Nat, k ≤ 32 →
      (((st.value <<< 5) ||| i) % M32) % 2 ^ k = (st.value * 32 + i) % 2 ^ k := by
    intro k hk
    rw [mod_M32_mod_pow _ k hk, shl_or_small st.value i 5 (by omega)]
    norm_num
  by_cases h8 : 8 ≤ st.bits + 5
  · -- a byte is emitted
    have hstep : decStep st c = ⟨st.bits + 5 - 8, ((st.value <<< 5) ||| i) % M32,
        st.out ++ [((((st.value <<< 5) ||| i) % M32) >>> (st.bits + 5 - 8)) &&& 255]⟩ := by
      simp [decStep, hc, h8]
    set v := ((st.value <<< 5) ||| i) % M32 with hvdef
    set e := st.bits - 3 with hedef
    have he5 : st.bits + 5 - 8 = e := by omega
    have hm8 : (st.bits + 5) % 8 = e := by omega
    have hd8 : (st.bits + 5) / 8 = 1 := by omega
    have hsb : st.bits = e + 3 := by omega
    set pend := st.value % 2 ^ (e + 3) with hpdef
    set P := pend * 32 + i with hPdef
    have hP8 : v % 2 ^ (e + 8) = P := by
      rw [hveq (e + 8) (by omega)]
      rw [show e + 8 = 3 + e + 5 by omega, pow_add,
        show (2 : Nat) ^ 5 = 32 by norm_num, Nat.mul_comm ((2:Nat) ^ (3 + e)) 32]
      rw [Nat.mod_mul]
      have h2 : (st.value * 32 + i) % 32 = i := by omega
      have h3 : (st.value * 32 + i) / 32 = st.value := by omega
      rw [h2, h3, hPdef, hpdef, show 3 + e = e + 3 by omega]
      ring
    have hbyte : (v >>> e) &&& 255 = P / 2 ^ e := by
      rw [Nat.shiftRight_eq_div_pow, and255_mod]
      rw [← Nat.mod_mul_right_div_self v (2 ^ e) 256]
      rw [show (2 : Nat) ^ e * 256 = 2 ^ (e + 8) by rw [pow_add]; norm_num]
      rw [hP8]
    have hlow : v % 2 ^ e = P % 2 ^ e := by
      have h := Nat.mod_mod_of_dvd v (pow_dvd_pow 2 (show e ≤ e + 8 by omega))
      rw [← h, hP8]
    rw [hstep]
    refine ⟨by simpa using hm8.symm, ?_, ?_, ?_⟩
    · simp [hd8, he5]
    · intro x hx
      simp only [List.mem_append, List.mem_singleton] at hx
      rcases hx with hx | hx
      · exact hout x hx
      · rw [hx, he5, hbyte]
        have : P / 2 ^ e < 256 := by
          have hPlt : P < 2 ^ (e + 8) := by
            have hpl : pend < 2 ^ (e + 3) := Nat.mod_lt _ (pow_pos (by norm_num) _)
            have hcalc : (2 : Nat) ^ (e + 8) = 2 ^ (e + 3) * 32 := by
              rw [show e + 8 = (e + 3) + 5 by omega, pow_add]; norm_num
            rw [hcalc]
            calc P = pend * 32 + i := rfl
              _ < (pend + 1) * 32 := by omega
              _ ≤ 2 ^ (e + 3) * 32 := Nat.mul_le_mul_right _ (by omega)
          have : P / 2 ^ e < 2 ^ 8 := by
            apply Nat.div_lt_of_lt_mul
            rw [← pow_add]
            exact hPlt
          simpa using this
        exact this
    · -- the value equation
      rw [hm8, he5, byteVal_append_one, hbyte, hlow]
      rw [hsb]
      have hdm : P / 2 ^ e * 2 ^ e + P % 2 ^ e = P := by
        rw [Nat.mul_comm]
        exact Nat.div_add_mod P (2 ^ e)
      have hpw : (2 : Nat) ^ (e + 3) * 32 = 256 * 2 ^ e := by
        rw [show e + 3 = 3 + e by omega, pow_add]; norm_num; ring
      calc (byteVal st.out * 256 + P / 2 ^ e) * 2 ^ e + P % 2 ^ e
          = byteVal st.out * (256 * 2 ^ e) + (P / 2 ^ e * 2 ^ e + P % 2 ^ e) := by ring
        _ = byteVal st.out * (256 * 2 ^ e) + P := by rw [hdm]
        _ = byteVal st.out * (2 ^ (e + 3) * 32) + (pend * 32 + i) := by rw [hpw]
        _ = (byteVal st.out * 2 ^ (e + 3) + st.value % 2 ^ (e + 3)) * 32 + i := by
            rw [← hpdef]; ring
  · -- no byte emitted
    have hstep : decStep st c = ⟨st.bits + 5, ((st.value <<< 5) ||| i) % M32, st.out⟩ := by
      simp [decStep, hc, h8]
    set v := ((st.value <<< 5) ||| i) % M32 with hvdef
    have hm8 : (st.bits + 5) % 8 = st.bits + 5 := by omega
    have hd8 : (st.bits + 5) / 8 = 0 := by omega
    have hv5 : v % 2 ^ (st.bits + 5) = (st.value % 2 ^ st.bits) * 32 + i := by
      rw [hveq (st.bits + 5) (by omega)]
      rw [pow_add, show (2 : Nat) ^ 5 = 32 by norm_num, Nat.mul_comm ((2:Nat) ^ st.bits) 32]
      rw [Nat.mod_mul]
      have h2 : (st.value * 32 + i) % 32 = i := by omega
      have h3 : (st.value * 32 + i) / 32 = st.value := by omega
      rw [h2, h3]
      ring
    rw [hstep]
    refine ⟨by simpa using hm8.symm, by simp [hd8], fun x hx => hout x hx, ?_⟩
    rw [hm8, hv5, pow_add, show (2 : Nat) ^ 5 = 32 by norm_num]
    ring

theorem foldl_decStep_run : ∀ (C : List Char) (st : DecSt),
    (∀ c ∈ C, (b32IndexOf c).isSome) → st.bits ≤ 7 → (∀ x ∈ st.out, x < 256) →
    ((C.foldl decStep st).bits = (st.bits + 5 * C.length) % 8 ∧
     (C.foldl decStep st).out.length = st.out.length + (st.bits + 5 * C.length) / 8 ∧
     (∀ x ∈ (C.foldl decStep st).out, x < 256) ∧
     byteVal (C.foldl decStep st).out * 2 ^ (C.foldl decStep st).bits +
         (C.foldl decStep st).value % 2 ^ (C.foldl decStep st).bits =
       C.foldl (fun a c => a * 32 + charIdx c)
         (byteVal st.out * 2 ^ st.bits + st.value % 2 ^ st.bits)) := by
  intro C
  induction C with
  | nil =>
    intro st _ hbits _
    refine ⟨?_, ?_, by simpa, rfl⟩
    · simp only [List.foldl_nil, List.length_nil, Nat.mul_zero, Nat.add_zero]
      omega
    · simp only [List.foldl_nil, List.length_nil, Nat.mul_zero, Nat.add_zero]
      omega
  | cons c cs ih =>
    intro st hvalid hbits hout
    cases hc : b32IndexOf c with
    | none =>
      exfalso
      have := hvalid c (by simp)
      rw [hc] at this
      simp at this
    | some i =>
      obtain ⟨hb1, hl1, ho1, hv1⟩ := decStep_of_valid st c i hc hbits hout
      have hbits1 : (decStep st c).bits ≤ 7 := by omega
      obtain ⟨hb2, hl2, ho2, hv2⟩ :=
        ih (decStep st c) (fun x hx => hvalid x (by simp [hx])) hbits1 ho1
      rw [List.foldl_cons]
      refine ⟨?_, ?_, ho2, ?_⟩
      · rw [hb2, hb1, List.length_cons]
        omega
      · rw [hl2, hl1, hb1, List.length_cons]
        omega
      · rw [hv2, List.foldl_cons]
        congr 1
        rw [hb1, hv1]
        simp [charIdx, hc]

/-! ## Encoder loop invariant -/

theorem emitLoopAux_spec : ∀ (fuel : Nat), ∀ (bits value : Nat) (acc : List Char),
    bits ≤ fuel →
    ∃ cs : List Char,
      emitLoopAux fuel value bits acc = (acc ++ cs, bits % 5) ∧
      cs.length = bits / 5 ∧
      (∀ c ∈ cs, (b32IndexOf c).isSome) ∧
      idxVal cs * 2 ^ (bits % 5) + value % 2 ^ (bits % 5) = value % 2 ^ bits := by
  intro fuel
  induction fuel with
  | zero =>
    intro bits value acc h
    have hb : bits = 0 := by omega
    subst hb
    exact ⟨[], by simp [emitLoopAux], by simp, by simp, by simp [idxVal]⟩
  | succ fuel ih =>
    intro bits value acc h
    by_cases h5 : 5 ≤ bits
    · obtain ⟨cs, h1, h2, h3, h4⟩ := ih (bits - 5) value
        (acc ++ [B32ALPHABET.getD ((value >>> (bits - 5)) &&& 31) ' ']) (by omega)
      set c := B32ALPHABET.getD ((value >>> (bits - 5)) &&& 31) ' ' with hcdef
      have hm : (bits - 5) % 5 = bits % 5 := by omega
      have hjlt : (value >>> (bits - 5)) &&& 31 < 32 := by
        rw [and31_mod]
        exact Nat.mod_lt _ (by norm_num)
      have hcidx : b32IndexOf c = some ((value >>> (bits - 5)) &&& 31) :=
        alpha_getD_index _ hjlt
      refine ⟨c :: cs, ?_, ?_, ?_, ?_⟩
      · simp only [emitLoopAux, h5, if_true]
        rw [h1, hm]
        simp [List.append_assoc]
      · simp only [List.length_cons, h2]
        omega
      · intro x hx
        rcases List.mem_cons.mp hx with hx | hx
        · rw [hx, hcidx]
          simp
        · exact h3 x hx
      · rw [idxVal_cons, h2]
        have hcharIdx : charIdx c = value / 2 ^ (bits - 5) % 32 := by
          simp [charIdx, hcidx, and31_mod, Nat.shiftRight_eq_div_pow]
        rw [hcharIdx]
        rw [hm] at h4
        have hpow : (32 : Nat) ^ ((bits - 5) / 5) * 2 ^ (bits % 5) = 2 ^ (bits - 5) := by
          rw [show (32 : Nat) = 2 ^ 5 by norm_num, ← pow_mul, ← pow_add]
          congr 1
          omega
        have hsplit : value % 2 ^ bits =
            value % 2 ^ (bits - 5) + 2 ^ (bits - 5) * (value / 2 ^ (bits - 5) % 32) := by
          rw [show (2 : Nat) ^ bits = 2 ^ (bits - 5) * 32 by
            rw [show (32 : Nat) = 2 ^ 5 by norm_num, ← pow_add]; congr 1; omega]
          exact Nat.mod_mul
        rw [hsplit, ← h4]
        ring_nf
        rw [mul_assoc, mul_comm ((2 : Nat) ^ (bits % 5)) ((32 : Nat) ^ ((bits - 5) / 5)), hpow]
    · refine ⟨[], ?_, ?_, by simp, ?_⟩
      · simp only [emitLoopAux, h5, if_false]
        rw [List.append_nil]
        congr 1
        omega
      · simp
        omega
      · have hm : bits % 5 = bits := by omega
        rw [hm]
        simp [idxVal]

theorem encStep_spec (st : EncSt) (β : Nat) (hβ : β < 256) (hbits : st.bits ≤ 4) :
    (encStep st β).bits = (st.bits + 8) % 5 ∧
    (encStep st β).res.length = st.res.length + (st.bits + 8) / 5 ∧
    (∀ c ∈ (encStep st β).res, c ∈ st.res ∨ (b32IndexOf c).isSome) ∧
    idxVal (encStep st β).res * 2 ^ ((st.bits + 8) % 5) +
        (encStep st β).value % 2 ^ ((st.bits + 8) % 5) =
      (idxVal st.res * 2 ^ st.bits + st.value % 2 ^ st.bits) * 256 + β := by
  set v := ((st.value <<< 8) ||| β) % M32 with hvdef
  obtain ⟨cs, h1, h2, h3, h4⟩ := emitLoopAux_spec (st.bits + 8) (st.bits + 8) v st.res (by omega)
  have hstep : encStep st β = ⟨(st.res ++ cs), (st.bits + 8) % 5, v⟩ := by
    simp only [encStep, emitLoop]
    rw [← hvdef, h1]
  have hv8 : v % 2 ^ (st.bits + 8) = (st.value % 2 ^ st.bits) * 256 + β := by
    rw [hvdef, mod_M32_mod_pow _ _ (by omega), shl_or_small st.value β 8 (by omega)]
    norm_num
    rw [show (2 : Nat) ^ (st.bits + 8) = 256 * 2 ^ st.bits by
      rw [pow_add]; norm_num; ring]
    rw [Nat.mod_mul]
    have h2' : (st.value * 256 + β) % 256 = β := by omega
    have h3' : (st.value * 256 + β) / 256 = st.value := by omega
    rw [h2', h3']
    ring
  rw [hstep]
  refine ⟨rfl, ?_, ?_, ?_⟩
  · simp [h2]
  · intro x hx
    rcases List.mem_append.mp hx with hx | hx
    · exact Or.inl hx
    · exact Or.inr (h3 x hx)
  · show idxVal (st.res ++ cs) * 2 ^ ((st.bits + 8) % 5) + v % 2 ^ ((st.bits + 8) % 5) = _
    rw [idxVal_append, h2]
    have hpow : (32 : Nat) ^ ((st.bits + 8) / 5) * 2 ^ ((st.bits + 8) % 5) =
        2 ^ (st.bits + 8) := by
      rw [show (32 : Nat) = 2 ^ 5 by norm_num, ← pow_mul, ← pow_add]
      congr 1
      omega
    calc (idxVal st.res * 32 ^ ((st.bits + 8) / 5) + idxVal cs) * 2 ^ ((st.bits + 8) % 5) +
          v % 2 ^ ((st.bits + 8) % 5)
        = idxVal st.res * (32 ^ ((st.bits + 8) / 5) * 2 ^ ((st.bits + 8) % 5)) +
          (idxVal cs * 2 ^ ((st.bits + 8) % 5) + v % 2 ^ ((st.bits + 8) % 5)) := by ring
      _ = idxVal st.res * 2 ^ (st.bits + 8) + v % 2 ^ (st.bits + 8) := by rw [hpow, h4]
      _ = idxVal st.res * (2 ^ st.bits * 256) + ((st.value % 2 ^ st.bits) * 256 + β) := by
          rw [hv8, pow_add]; norm_num
      _ = (idxVal st.res * 2 ^ st.bits + st.value % 2 ^ st.bits) * 256 + β := by ring

theorem foldl_encStep_run : ∀ (B : List Nat) (st : EncSt),
    (∀ b ∈ B, b < 256) → st.bits ≤ 4 →
    ((B.foldl encStep st).bits = (st.bits + 8 * B.length) % 5 ∧
     (B.foldl encStep st).bits ≤ 4 ∧
     (B.foldl encStep st).res.length = st.res.length + (st.bits + 8 * B.length) / 5 ∧
     (∀ c ∈ (B.foldl encStep st).res, c ∈ st.res ∨ (b32IndexOf c).isSome) ∧
     idxVal (B.foldl encStep st).res * 2 ^ (B.foldl encStep st).bits +
         (B.foldl encStep st).value % 2 ^ (B.foldl encStep st).bits =
       B.foldl (fun a b => a * 256 + b)
         (idxVal st.res * 2 ^ st.bits + st.value % 2 ^ st.bits)) := by
  intro B
  induction B with
  | nil =>
    intro st _ hbits
    refine ⟨?_, by simpa using hbits, ?_, fun c hc => Or.inl hc, rfl⟩
    · simp only [List.foldl_nil, List.length_nil, Nat.mul_zero, Nat.add_zero]
      omega
    · simp only [List.foldl_nil, List.length_nil, Nat.mul_zero, Nat.add_zero]
      omega
  | cons β bs ih =>
    intro st hB hbits
    have hβ : β < 256 := hB β (by simp)
    obtain ⟨hb1, hl1, hm1, hv1⟩ := encStep_spec st β hβ hbits
    have hbits1 : (encStep st β).bits ≤ 4 := by omega
    obtain ⟨hb2, hble2, hl2, hm2, hv2⟩ :=
      ih (encStep st β) (fun x hx => hB x (by simp [hx])) hbits1
    rw [List.foldl_cons]
    refine ⟨?_, hble2, ?_, ?_, ?_⟩
    · rw [hb2, hb1, List.length_cons]
      omega
    · rw [hl2, hl1, hb1, List.length_cons]
      omega
    · intro c hc
      rcases hm2 c hc with hc2 | hc2
      · rcases hm1 c hc2 with hc3 | hc3
        · exact Or.inl hc3
        · exact Or.inr hc3
      · exact Or.inr hc2
    · rw [hv2, List.foldl_cons]
      congr 1
      rw [hb1, hv1]

theorem alpha_valid : ∀ c ∈ B32ALPHABET, validB32 c = true := by decide

theorem b32EncodeCore_spec (B : List Nat) (hB : ∀ b ∈ B, b < 256) :
    (∀ c ∈ b32EncodeCore B, (b32IndexOf c).isSome) ∧
    5 * (b32EncodeCore B).length = 8 * B.length + (5 - (8 * B.length) % 5) % 5 ∧
    idxVal (b32EncodeCore B) = byteVal B * 2 ^ ((5 - (8 * B.length) % 5) % 5) := by
  obtain ⟨hb, hble, hl, hm, hv⟩ := foldl_encStep_run B ⟨[], 0, 0⟩ hB (by norm_num)
  set st := B.foldl encStep ⟨[], 0, 0⟩ with hst
  have hmem : ∀ c ∈ st.res, (b32IndexOf c).isSome := by
    intro c hc
    rcases hm c hc with hc2 | hc2
    · simp at hc2
    · exact hc2
  have hinit : idxVal (⟨[], 0, 0⟩ : EncSt).res * 2 ^ (⟨[], 0, 0⟩ : EncSt).bits +
      (⟨[], 0, 0⟩ : EncSt).value % 2 ^ (⟨[], 0, 0⟩ : EncSt).bits = 0 := by
    norm_num [idxVal]
  rw [hinit] at hv
  have hT : idxVal st.res * 2 ^ st.bits + st.value % 2 ^ st.bits = byteVal B := hv
  have hb2 : st.bits = (8 * B.length) % 5 := by simpa using hb
  have hl2 : st.res.length = (8 * B.length) / 5 := by simpa using hl
  by_cases hz : 0 < st.bits
  · -- a final character is appended
    have hcore : b32EncodeCore B = st.res ++ [B32ALPHABET.getD ((st.value <<< (5 - st.bits)) &&& 31) ' '] := by
      simp only [b32EncodeCore, ← hst, hz, if_true]
    have hjlt : (st.value <<< (5 - st.bits)) &&& 31 < 32 := by
      rw [and31_mod]
      exact Nat.mod_lt _ (by norm_num)
    have hj : (st.value <<< (5 - st.bits)) &&& 31 =
        (st.value % 2 ^ st.bits) * 2 ^ (5 - st.bits) := by
      rw [and31_mod, Nat.shiftLeft_eq]
      rw [show (32 : Nat) = 2 ^ st.bits * 2 ^ (5 - st.bits) by
        rw [← pow_add, show st.bits + (5 - st.bits) = 5 by omega]; norm_num]
      exact Nat.mul_mod_mul_right _ _ _
    have hpad : (5 - (8 * B.length) % 5) % 5 = 5 - st.bits := by omega
    refine ⟨?_, ?_, ?_⟩
    · intro c hc
      rw [hcore] at hc
      rcases List.mem_append.mp hc with hc2 | hc2
      · exact hmem c hc2
      · rw [List.mem_singleton.mp hc2, alpha_getD_index _ hjlt]
        simp
    · rw [hcore, List.length_append, List.length_singleton, hpad]
      omega
    · rw [hcore, idxVal_append, hpad]
      have hcx : charIdx (B32ALPHABET.getD ((st.value <<< (5 - st.bits)) &&& 31) ' ') =
          (st.value <<< (5 - st.bits)) &&& 31 := by
        unfold charIdx
        rw [alpha_getD_index _ hjlt]
        rfl
      have hsingle : idxVal [B32ALPHABET.getD ((st.value <<< (5 - st.bits)) &&& 31) ' '] =
          (st.value % 2 ^ st.bits) * 2 ^ (5 - st.bits) := by
        have h0 : idxVal [B32ALPHABET.getD ((st.value <<< (5 - st.bits)) &&& 31) ' '] =
            charIdx (B32ALPHABET.getD ((st.value <<< (5 - st.bits)) &&& 31) ' ') := by
          simp [idxVal]
        rw [h0, hcx, hj]
      rw [hsingle, List.length_singleton]
      have hp32 : (32 : Nat) ^ 1 = 2 ^ st.bits * 2 ^ (5 - st.bits) := by
        rw [← pow_add]
        have : st.bits + (5 - st.bits) = 5 := by omega
        rw [this]
        norm_num
      calc idxVal st.res * 32 ^ 1 + st.value % 2 ^ st.bits * 2 ^ (5 - st.bits)
          = (idxVal st.res * 2 ^ st.bits + st.value % 2 ^ st.bits) * 2 ^ (5 - st.bits) := by
            rw [hp32]; ring
        _ = byteVal B * 2 ^ (5 - st.bits) := by rw [hT]
  · -- no final character
    have hb0 : st.bits = 0 := by omega
    have hcore : b32EncodeCore B = st.res := by
      simp only [b32EncodeCore, ← hst, hz, if_false]
    have hpad : (5 - (8 * B.length) % 5) % 5 = 0 := by omega
    refine ⟨?_, ?_, ?_⟩
    · intro c hc
      rw [hcore] at hc
      exact hmem c hc
    · rw [hcore, hpad]
      omega
    · rw [hcore, hpad]
      rw [hb0] at hT
      simpa [Nat.mod_one] using hT

theorem eff_of_padded (l : List Char) (hval : ∀ c ∈ l, (b32IndexOf c).isSome) (k : Nat) :
    ((l ++ List.replicate k '=').map jsUpper).filter validB32 = l := by
  rw [List.map_append, List.filter_append]
  have h1 : l.map jsUpper = l := by
    have := List.map_congr_left
      (fun a ha => alpha_upper_fixed a (b32IndexOf_mem a (hval a ha)))
    rw [this]
    simp
  have h2 : (List.replicate k '=').map jsUpper = List.replicate k '=' := by
    rw [List.map_replicate]
    have : jsUpper '=' = '=' := by decide
    rw [this]
  have h3 : l.filter validB32 = l :=
    List.filter_eq_self.mpr (fun a ha => by simp [validB32, hval a ha])
  have h4 : (List.replicate k '=').filter validB32 = [] := by
    have : validB32 '=' = false := by decide
    simp [List.filter_replicate, this]
  rw [h1, h2, h3, h4, List.append_nil]

theorem padEq_shape (l : List Char) : ∃ k, padEq l = l ++ List.replicate k '=' := by
  by_cases hp : l.length % 8 = 0
  · exact ⟨0, by simp [padEq, hp]⟩
  · exact ⟨8 - l.length % 8, by simp [padEq, hp]⟩

theorem base32Decode_b32Encode (B : List Nat) (hB : ∀ b ∈ B, b < 256) :
    base32Decode (b32Encode B) = B := by
  obtain ⟨hval, hlen, hidx⟩ := b32EncodeCore_spec B hB
  have hdata : (b32Encode B).data = padEq (b32EncodeCore B) := rfl
  rw [base32Decode_eff, hdata]
  obtain ⟨k, hk⟩ := padEq_shape (b32EncodeCore B)
  rw [hk, eff_of_padded _ hval k]
  obtain ⟨hb, hl, ho, hv⟩ := foldl_decStep_run (b32EncodeCore B) ⟨0, 0, []⟩ hval
    (by norm_num) (by simp)
  set stf := (b32EncodeCore B).foldl decStep ⟨0, 0, []⟩ with hstf
  set pad := (5 - (8 * B.length) % 5) % 5 with hpaddef
  have hpadlt : pad < 5 := by omega
  have hinit : byteVal (⟨0, 0, []⟩ : DecSt).out * 2 ^ (⟨0, 0, []⟩ : DecSt).bits +
      (⟨0, 0, []⟩ : DecSt).value % 2 ^ (⟨0, 0, []⟩ : DecSt).bits = 0 := by
    norm_num [byteVal]
  rw [hinit] at hv
  have hTcore : (b32EncodeCore B).foldl (fun a c => a * 32 + charIdx c) 0 =
      idxVal (b32EncodeCore B) := rfl
  rw [hTcore, hidx] at hv
  have hb2 : stf.bits = (5 * (b32EncodeCore B).length) % 8 := by simpa using hb
  have hl2 : stf.out.length = (5 * (b32EncodeCore B).length) / 8 := by simpa using hl
  have hbits : stf.bits = pad := by omega
  have hlenout : stf.out.length = B.length := by
    rw [hl2]
    omega
  rw [hbits] at hv
  have hrlt : stf.value % 2 ^ pad < 2 ^ pad := Nat.mod_lt _ (pow_pos (by norm_num) _)
  have hout : byteVal stf.out = byteVal B := by
    have hle1 : byteVal stf.out ≤ byteVal B := by
      have h1 : byteVal stf.out * 2 ^ pad ≤ byteVal B * 2 ^ pad := by omega
      exact Nat.le_of_mul_le_mul_right h1 (pow_pos (by norm_num) _)
    have hle2 : byteVal B ≤ byteVal stf.out := by
      have h1 : byteVal B * 2 ^ pad < (byteVal stf.out + 1) * 2 ^ pad := by
        have : (byteVal stf.out + 1) * 2 ^ pad = byteVal stf.out * 2 ^ pad + 2 ^ pad := by ring
        omega
      have := Nat.lt_of_mul_lt_mul_right h1
      omega
    omega
  exact byteVal_inj stf.out B hlenout ho hB hout

/-! ## SHA-1 output shape -/

theorem sha1Compress_length (hs block : List Nat) : (sha1Compress hs block).length = 5 := by
  simp [sha1Compress]

theorem foldl_sha1Compress_length (blocks : List (List Nat)) (hs : List Nat)
    (h : hs.length = 5) : (blocks.foldl sha1Compress hs).length = 5 := by
  induction blocks generalizing hs with
  | nil => simpa
  | cons b bs ih => exact ih _ (sha1Compress_length hs b)

theorem flatten_wordBytes_length (hs : List Nat) :
    ((hs.map wordBytes).flatten).length = 4 * hs.length := by
  induction hs with
  | nil => simp
  | cons w ws ih =>
    simp only [List.map_cons, List.flatten_cons, List.length_append, ih, List.length_cons]
    simp [wordBytes]
    omega

theorem sha1_length (msg : List Nat) : (sha1 msg).length = 20 := by
  unfold sha1
  rw [flatten_wordBytes_length, foldl_sha1Compress_length _ _ (by decide)]

theorem wordBytes_lt (w : Nat) : ∀ b ∈ wordBytes w, b < 256 := by
  intro b hb
  simp only [wordBytes, List.mem_cons, List.not_mem_nil, or_false] at hb
  rcases hb with h | h | h | h <;> rw [h] <;>
    exact lt_of_le_of_lt Nat.and_le_right (by norm_num)

theorem sha1_bytes_lt (msg : List Nat) : ∀ b ∈ sha1 msg, b < 256 := by
  intro b hb
  unfold sha1 at hb
  rw [List.mem_flatten] at hb
  obtain ⟨l, hl, hbl⟩ := hb
  rw [List.mem_map] at hl
  obtain ⟨w, _, hw⟩ := hl
  exact wordBytes_lt w b (hw ▸ hbl)

theorem hmacSha1_bytes_lt (key msg : List Nat) : ∀ b ∈ hmacSha1 key msg, b < 256 := by
  intro b hb
  unfold hmacSha1 at hb
  exact sha1_bytes_lt _ b hb

theorem getD_lt (l : List Nat) (h : ∀ b ∈ l, b < 256) : ∀ i, l.getD i 0 < 256 := by
  intro i
  induction l generalizing i with
  | nil => norm_num [List.getD]
  | cons a as ih =>
    cases i with
    | zero => simpa using h a (by simp)
    | succ j =>
      simp only [List.getD_cons_succ]
      exact ih (fun b hb => h b (by simp [hb])) j

theorem and255_of_lt (x : Nat) (h : x < 256) : x &&& 255 = x := by
  rw [and255_mod, Nat.mod_eq_of_lt h]

theorem counterBufOf_eq_be8 (c : Nat) : counterBufOf c = be8 c := by
  show counterBufAux 8 c = be8 c
  simp only [counterBufAux, be8, Nat.shiftRight_eq_div_pow]
  norm_num [Nat.div_div_eq_div_mul]

/-- Claim C1: for every Base32 secret string and every epoch-millisecond time,
totp equals the RFC 6238/4226 computation the specification prescribes:
30-second counter window, 8-byte big-endian counter, key from base32Decode,
HMAC-SHA1 digest, dynamic truncation with the 0x7F mask, value mod 10^6,
zero-padded to exactly 6 digits. -/
theorem totp_matches_rfc6238 (s : String) (t : Nat) : totp s t = totpSpec s t := by
  simp only [totp, totpSpec]
  rw [counterBufOf_eq_be8, base32Decode_stripWs]
  have hlt := hmacSha1_bytes_lt (base32Decode s) (be8 (t / 1000 / 30))
  set dg := hmacSha1 (base32Decode s) (be8 (t / 1000 / 30)) with hdg
  rw [and255_of_lt _ (getD_lt dg hlt _), and255_of_lt _ (getD_lt dg hlt _),
    and255_of_lt _ (getD_lt dg hlt _)]

/-- Claim C3: decoding the Base32 encoding of any byte sequence returns
exactly that sequence: base32Decode is a left inverse of the bit-packing
'='-padded encoder on byte sequences. -/
theorem base32_decode_encode_roundtrip (b : List Nat) (hb : ∀ x ∈ b, x < 256) :
    base32Decode (b32Encode b) = b := base32Decode_b32Encode b hb

theorem base32_decode_encode_roundtrip_witness :
    (∀ x ∈ [0, 255, 7, 130, 19], x < 256) ∧
    base32Decode (b32Encode [0, 255, 7, 130, 19]) = [0, 255, 7, 130, 19] :=
  ⟨by decide, base32_decode_encode_roundtrip [0, 255, 7, 130, 19] (by decide)⟩

/-! ## Six-digit output shape -/

theorem digitChar_isDigit : ∀ m, m < 10 → (digitChar m).isDigit = true := by decide

theorem natToDigitsAux_spec : ∀ (fuel : Nat), ∀ (n k : Nat), n < fuel → 1 ≤ k → n < 10 ^ k →
    (natToDigitsAux fuel n).length ≤ k ∧ ∀ c ∈ natToDigitsAux fuel n, c.isDigit := by
  intro fuel
  induction fuel with
  | zero => intro n k h; omega
  | succ fuel ih =>
    intro n k hn hk hpow
    by_cases h10 : n < 10
    · refine ⟨?_, ?_⟩
      · simp only [natToDigitsAux, h10, if_true, List.length_singleton]
        omega
      · intro c hc
        simp only [natToDigitsAux, h10, if_true, List.mem_singleton] at hc
        rw [hc]
        exact digitChar_isDigit n h10
    · have hk2 : 2 ≤ k := by
        by_contra hc
        have hk1 : k = 1 := by omega
        subst hk1
        simp at hpow
        omega
      have hdiv : n / 10 < fuel := by
        have := Nat.div_lt_self (show 0 < n by omega) (show 1 < 10 by omega)
        omega
      have hdivpow : n / 10 < 10 ^ (k - 1) := by
        apply Nat.div_lt_of_lt_mul
        rw [Nat.mul_comm, ← pow_succ, show k - 1 + 1 = k by omega]
        exact hpow
      obtain ⟨hl, hd⟩ := ih (n / 10) (k - 1) hdiv (by omega) hdivpow
      refine ⟨?_, ?_⟩
      · simp only [natToDigitsAux, h10, if_false, List.length_append, List.length_singleton]
        omega
      · intro c hc
        simp only [natToDigitsAux, h10, if_false, List.mem_append, List.mem_singleton] at hc
        rcases hc with hc | hc
        · exact hd c hc
        · rw [hc]
          exact digitChar_isDigit _ (Nat.mod_lt _ (by norm_num))

theorem padStartSix_natToStr (code : Nat) (h : code < 1000000) :
    (padStartSix (natToStr code)).length = 6 ∧
    ∀ c ∈ (padStartSix (natToStr code)).data, c.isDigit := by
  obtain ⟨hlen, hdig⟩ := natToDigitsAux_spec (code + 1) code 6 (by omega) (by omega)
    (by norm_num; omega)
  have hds : (natToStr code).data = natToDigitsAux (code + 1) code := rfl
  have hls : (natToStr code).length = (natToDigitsAux (code + 1) code).length := rfl
  constructor
  · show (List.replicate (6 - (natToStr code).length) '0' ++ (natToStr code).data).length = 6
    rw [List.length_append, List.length_replicate, hds, hls]
    omega
  · intro c hc
    have : c ∈ List.replicate (6 - (natToStr code).length) '0' ++ (natToStr code).data := hc
    rcases List.mem_append.mp this with hc2 | hc2
    · rw [List.eq_of_mem_replicate hc2]
      decide
    · rw [hds] at hc2
      exact hdig c hc2

theorem totp_shape (s : String) (t : Nat) :
    (totp s t).length = 6 ∧ ∀ c ∈ (totp s t).data, c.isDigit := by
  simp only [totp]
  exact padStartSix_natToStr _ (Nat.mod_lt _ (by norm_num))

/-- Claim C4: base32Decode and totp are total on all inputs: decoding the
empty string yields the empty byte sequence; a string all of whose characters
are outside the alphabet (case-insensitively) decodes to the empty byte
sequence rather than failing; and a secret that decodes to zero bytes still
produces a 6-digit decimal code from totp (keyed on the empty key), with no
possibility of raising (all embedded functions are total). -/
theorem base32_totp_total (s : String) (t : Nat) :
    base32Decode ("") = [] ∧
    ((∀ c ∈ s.data, b32IndexOf (jsUpper c) = none) → base32Decode s = []) ∧
    (base32Decode s = [] →
      (totp s t).length = 6 ∧ ∀ c ∈ (totp s t).data, c.isDigit) := by
  refine ⟨by decide, ?_, fun _ => totp_shape s t⟩
  intro hinv
  rw [base32Decode_eff]
  have hfil : (s.data.map jsUpper).filter validB32 = [] := by
    rw [List.filter_eq_nil_iff]
    intro a ha
    rw [List.mem_map] at ha
    obtain ⟨c, hc, hac⟩ := ha
    simp [validB32, ← hac, hinv c hc]
  rw [hfil]
  rfl

theorem base32_totp_total_witness :
    base32Decode ("!?.$") = [] ∧ (totp ("!?.$") 59000).length = 6 := by
  have h1 := (base32_totp_total ("!?.$") 59000).2.1 (by decide)
  exact ⟨h1, ((base32_totp_total ("!?.$") 59000).2.2 h1).1⟩

/-- Claim C9: generateSecret Base32-encodes its 20 random input bytes with
'=' padding to a multiple of 8 characters: the output uses only the RFC 4648
alphabet plus trailing '=', its length is a multiple of 8, and base32Decode
returns exactly the 20 raw bytes. -/
theorem generateSecret_spec (raw : List Nat) (h20 : raw.length = 20)
    (hb : ∀ x ∈ raw, x < 256) :
    (∀ c ∈ (generateSecret raw).data, c ∈ B32ALPHABET ∨ c = '=') ∧
    (generateSecret raw).length % 8 = 0 ∧
    base32Decode (generateSecret raw) = raw := by
  obtain ⟨hval, hlen, _⟩ := b32EncodeCore_spec raw hb
  refine ⟨?_, ?_, ?_⟩
  · intro c hc
    have hdata : (generateSecret raw).data = padEq (b32EncodeCore raw) := rfl
    rw [hdata] at hc
    obtain ⟨k, hk⟩ := padEq_shape (b32EncodeCore raw)
    rw [hk] at hc
    rcases List.mem_append.mp hc with hc2 | hc2
    · exact Or.inl (b32IndexOf_mem c (hval c hc2))
    · exact Or.inr (List.eq_of_mem_replicate hc2)
  · show (padEq (b32EncodeCore raw)).length % 8 = 0
    unfold padEq
    by_cases hp : (b32EncodeCore raw).length % 8 = 0
    · rw [if_pos hp]
      exact hp
    · rw [if_neg hp]
      rw [List.length_append, List.length_replicate]
      omega
  · exact base32Decode_b32Encode raw hb

theorem generateSecret_spec_witness :
    (List.range 20).length = 20 ∧
    base32Decode (generateSecret (List.range 20)) = List.range 20 :=
  ⟨by decide, (generateSecret_spec (List.range 20) (by decide) (by decide)).2.2⟩
